import Mathlib

/-
Verification of the metric-aggregation pipeline in `github_metrics.py`
(`get_github_metrics`): branch map construction, commit collection,
per-developer metric accumulation and report emission.  Dates are modelled
at calendar-day granularity as integers (`commit.commit.author.date.date()`
and `start_date.date()` both truncate to a calendar date before any
comparison the accumulator performs).
-/

namespace GithubMetrics

/-- One entry of `commit.files`: filename plus optional line counts
(`file.additions` / `file.deletions` may be absent, i.e. `None`). -/
structure FileDelta where
  filename : String
  additions : Option Nat
  deletions : Option Nat
deriving DecidableEq

/-- One step of iterating `commit.files`: either a file delta is yielded, or
the iteration raises (the `except` around the file loop catches it). -/
inductive FileEvent where
  | ok (d : FileDelta)
  | err
deriving DecidableEq

/-- The raw git author record `commit.commit.author` (when present): a name
and the commit timestamp truncated to a calendar date. -/
structure GitAuthor where
  name : String
  date : Int
deriving DecidableEq

/-- A commit as the accumulator sees it: `commit.sha`, the optional platform
user `commit.author` (projected to its `login`), the optional raw record
`commit.commit.author`, and the stream of file deltas `commit.files`. -/
structure Commit where
  sha : String
  author_login : Option String
  commit_author : Option GitAuthor
  files : List FileEvent
deriving DecidableEq

/-- ASCII lowercasing of one character, as `str.lower()` acts on the ASCII
filenames involved. -/
def lowerChar (c : Char) : Char :=
  if 65 ≤ c.toNat && c.toNat ≤ 90 then Char.ofNat (c.toNat + 32) else c

/-- Image-file test from the source:
`file.filename.lower().endswith(('.png', '.jpg', '.jpeg'))`, embedded over
the filename's character list. -/
def isImage (name : String) : Bool :=
  let lower := name.data.map lowerChar
  List.isSuffixOf ".png".data lower || List.isSuffixOf ".jpg".data lower ||
    List.isSuffixOf ".jpeg".data lower

/-- Per-developer counters, mirroring the `dev_metrics` defaultdict entries. -/
@[ext] structure DevMetrics where
  lines_added : Nat
  lines_removed : Nat
  commits : Nat
  coding_days : Finset Int
  commits_per_day : Int → Nat
  files_changed : Finset String
  first_commit : Option Int
  last_commit : Option Int
  pr_branch_commits : Nat
  pr_branch_days : Finset Int
  master_commits : Nat
  master_days : Finset Int

/-- The defaultdict default value for a developer entry. -/
def devDefault : DevMetrics where
  lines_added := 0
  lines_removed := 0
  commits := 0
  coding_days := ∅
  commits_per_day := fun _ => 0
  files_changed := ∅
  first_commit := none
  last_commit := none
  pr_branch_commits := 0
  pr_branch_days := ∅
  master_commits := 0
  master_days := ∅

/-- Body of the file loop for a single file delta: skip image files,
otherwise record the filename and add the optional line counts. -/
def applyDelta (m : DevMetrics) (d : FileDelta) : DevMetrics :=
  if isImage d.filename then m
  else
    let m1 := { m with files_changed := insert d.filename m.files_changed }
    let m2 :=
      match d.additions with
      | some n => { m1 with lines_added := m1.lines_added + n }
      | none => m1
    match d.deletions with
    | some n => { m2 with lines_removed := m2.lines_removed + n }
    | none => m2

/-- The `try`-wrapped file loop: events are consumed in order and a raised
failure ends the loop, keeping everything applied so far. -/
def processFiles (m : DevMetrics) : List FileEvent → DevMetrics
  | [] => m
  | FileEvent.err :: _ => m
  | FileEvent.ok d :: rest => processFiles (applyDelta m d) rest

/-- Author resolution fallback chain:
`commit.author.login`, else `commit.commit.author.name`, else `"Unknown"`. -/
def resolveAuthor (c : Commit) : String :=
  match c.author_login with
  | some l => l
  | none =>
    match c.commit_author with
    | some ga => ga.name
    | none => "Unknown"

/-- The `commit_branch_map` construction: for each branch in enumeration
order, for each commit SHA fetched on it, `commit_branch_map[sha] = branch`.
Input is the list of (branch name, fetched commit SHAs) pairs. -/
def buildCommitBranchMap (branchData : List (String × List String)) :
    String → Option String :=
  branchData.foldl
    (fun m p => p.2.foldl (fun m2 sha => fun s => if s = sha then some p.1 else m2 s) m)
    (fun _ => none)

/-- The `all_commits` aggregation: start from an empty list and `extend` it
with each branch's fetched commits, in branch enumeration order. -/
def collectAll (branchCommits : List (String × List Commit)) : List Commit :=
  branchCommits.foldl (fun acc p => acc ++ p.2) []

/-- Commit-level updates for one counted commit (author already resolved,
`cd` the commit's calendar date): bump the commit counters, classify the
commit's branch via the SHA map (`'Unknown'` when unresolved, `'master'`
counted as master), update first/last dates, then run the file loop. -/
def stepDev (bmap : String → Option String) (m : DevMetrics) (c : Commit)
    (cd : Int) : DevMetrics :=
  let m1 := { m with
    commits := m.commits + 1
    coding_days := insert cd m.coding_days
    commits_per_day := fun d => if d = cd then m.commits_per_day d + 1 else m.commits_per_day d }
  let bname := (bmap c.sha).getD "Unknown"
  let m2 :=
    if bname = "master" then
      { m1 with master_commits := m1.master_commits + 1
                master_days := insert cd m1.master_days }
    else
      { m1 with pr_branch_commits := m1.pr_branch_commits + 1
                pr_branch_days := insert cd m1.pr_branch_days }
  let m3 :=
    match m2.first_commit with
    | none => { m2 with first_commit := some cd }
    | some f => if cd < f then { m2 with first_commit := some cd } else m2
  let m4 :=
    match m3.last_commit with
    | none => { m3 with last_commit := some cd }
    | some l => if l < cd then { m3 with last_commit := some cd } else m3
  processFiles m4 c.files

/-- The accumulator state: the `dev_metrics` dict, as its key list in
insertion order together with a total metrics function (defaultdict). -/
structure AccState where
  authors : List String
  metrics : String → DevMetrics

/-- The empty `dev_metrics` dict. -/
def initState : AccState where
  authors := []
  metrics := fun _ => devDefault

/-- Defaultdict key creation: first access of `dev_metrics[author]` appends
the key; later accesses leave the key list unchanged. -/
def touchAuthor (l : List String) (a : String) : List String :=
  if a ∈ l then l else l ++ [a]

/-- Processing of one commit from `all_commits`.  The source reads
`commit.commit.author.date` unconditionally, so an absent raw author record
raises (modelled as `none`); otherwise the commit is counted exactly when its
calendar date is at least `start_date`'s calendar date `sd`. -/
def processCommit (sd : Int) (bmap : String → Option String) (st : AccState)
    (c : Commit) : Option AccState :=
  match c.commit_author with
  | none => none
  | some ga =>
    let author := resolveAuthor c
    let cd := ga.date
    if sd ≤ cd then
      some { authors := touchAuthor st.authors author
             metrics := fun x =>
               if x = author then stepDev bmap (st.metrics author) c cd
               else st.metrics x }
    else
      some st

/-- Total restatement of `processCommit` on commits whose raw author record
is present (the only ones a run can get past). -/
def totalStep (sd : Int) (bmap : String → Option String) (st : AccState)
    (c : Commit) : AccState :=
  match c.commit_author with
  | none => st
  | some ga =>
    let author := resolveAuthor c
    let cd := ga.date
    if sd ≤ cd then
      { authors := touchAuthor st.authors author
        metrics := fun x =>
          if x = author then stepDev bmap (st.metrics author) c cd
          else st.metrics x }
    else
      st

/-- The accumulator loop over `all_commits`; a raise during commit-level
processing aborts the whole run (only the file loop is `try`-protected). -/
def runAccum (sd : Int) (bmap : String → Option String) (st : AccState) :
    List Commit → Option AccState
  | [] => some st
  | c :: cs =>
    match processCommit sd bmap st c with
    | none => none
    | some st2 => runAccum sd bmap st2 cs

/-- Team summary row: total lines added, summed over `dev_metrics.values()`. -/
def teamTotalLinesAdded (st : AccState) : Nat :=
  (st.authors.map (fun a => (st.metrics a).lines_added)).sum

/-- Team summary row: total lines removed. -/
def teamTotalLinesRemoved (st : AccState) : Nat :=
  (st.authors.map (fun a => (st.metrics a).lines_removed)).sum

/-- Team summary row: total commits, summed over `dev_metrics.values()`. -/
def teamTotalCommits (st : AccState) : Nat :=
  (st.authors.map (fun a => (st.metrics a).commits)).sum

/-- Team summary row: `len(set().union(*(metrics['coding_days'] ...)))`. -/
def teamCodingDays (st : AccState) : Nat :=
  (st.authors.foldl (fun acc a => acc ∪ (st.metrics a).coding_days) ∅).card

/-- Team summary row: `len(dev_metrics)`. -/
def teamActiveDevelopers (st : AccState) : Nat :=
  st.authors.length

/-- Developer summary: `(last - first).days + 1` when both dates are set
(dates are truthy whenever not `None`), else `0`. -/
def activityDays (m : DevMetrics) : Int :=
  match m.first_commit, m.last_commit with
  | some f, some l => (l - f) + 1
  | _, _ => 0

/-- Developer summary: `commits / activity_days` guarded by
`if activity_days > 0`, else `0`. -/
def avgCommitsPerDay (m : DevMetrics) : Rat :=
  if 0 < activityDays m then (m.commits : Rat) / ((activityDays m : Int) : Rat)
  else 0

/-- Daily activity table: for each developer in dict order, one row per
`i in range(7)` at date `end - i` days, with `commits_per_day.get(date, 0)`. -/
def dailyRows (endDay : Int) (st : AccState) : List (String × Int × Nat) :=
  st.authors.foldl
    (fun rows a =>
      rows ++ (List.range 7).map
        (fun (i : Nat) =>
          (a, endDay - (i : Int), (st.metrics a).commits_per_day (endDay - (i : Int)))))
    []

/-- A commit the accumulator counts: raw author record present and calendar
date within the window re-filter. -/
def countedCommit (sd : Int) (c : Commit) : Bool :=
  match c.commit_author with
  | some ga => decide (sd ≤ ga.date)
  | none => false

/-- A commit counted for a particular developer identity. -/
def countedFor (sd : Int) (a : String) (c : Commit) : Bool :=
  countedCommit sd c && (resolveAuthor c == a)

/-- Line additions the file loop accrues from an event stream. -/
def addSum : List FileEvent → Nat
  | [] => 0
  | FileEvent.err :: _ => 0
  | FileEvent.ok d :: rest =>
    (if isImage d.filename then 0 else d.additions.getD 0) + addSum rest

/-- Line deletions the file loop accrues from an event stream. -/
def delSum : List FileEvent → Nat
  | [] => 0
  | FileEvent.err :: _ => 0
  | FileEvent.ok d :: rest =>
    (if isImage d.filename then 0 else d.deletions.getD 0) + delSum rest

/-- Filenames the file loop records from an event stream. -/
def filesOf : List FileEvent → Finset String
  | [] => ∅
  | FileEvent.err :: _ => ∅
  | FileEvent.ok d :: rest =>
    (if isImage d.filename then (∅ : Finset String) else {d.filename}) ∪ filesOf rest

/-- An event stream with no raised failure. -/
def allOk : List FileEvent → Bool
  | [] => true
  | FileEvent.err :: _ => false
  | FileEvent.ok _ :: rest => allOk rest

/-- All file deltas carried by an event stream. -/
def deltaList : List FileEvent → List FileDelta
  | [] => []
  | FileEvent.err :: rest => deltaList rest
  | FileEvent.ok d :: rest => d :: deltaList rest

/-- Spec-side sum of per-file additions over the non-image deltas, absent
values taken as 0. -/
def sumAdds (ds : List FileDelta) : Nat :=
  ((ds.filter (fun d => !isImage d.filename)).map (fun d => d.additions.getD 0)).sum

/-- Spec-side sum of per-file deletions over the non-image deltas, absent
values taken as 0. -/
def sumDels (ds : List FileDelta) : Nat :=
  ((ds.filter (fun d => !isImage d.filename)).map (fun d => d.deletions.getD 0)).sum

/-- First-commit update rule: the running minimum of the dates seen. -/
def updFirst (o : Option Int) (cd : Int) : Int :=
  match o with
  | none => cd
  | some f => min cd f

/-- Last-commit update rule: the running maximum of the dates seen. -/
def updLast (o : Option Int) (cd : Int) : Int :=
  match o with
  | none => cd
  | some l => max cd l

lemma ite_lt_min (cd f : Int) : (if cd < f then cd else f) = min cd f := by
  rw [min_def]
  split <;> split <;> omega

lemma ite_lt_max (cd l : Int) : (if l < cd then cd else l) = max cd l := by
  rw [max_def]
  split <;> split <;> omega

lemma applyDelta_commits (m : DevMetrics) (d : FileDelta) :
    (applyDelta m d).commits = m.commits := by
  unfold applyDelta
  split
  · rfl
  · cases d.additions <;> cases d.deletions <;> rfl

lemma applyDelta_coding_days (m : DevMetrics) (d : FileDelta) :
    (applyDelta m d).coding_days = m.coding_days := by
  unfold applyDelta
  split
  · rfl
  · cases d.additions <;> cases d.deletions <;> rfl

lemma applyDelta_commits_per_day (m : DevMetrics) (d : FileDelta) :
    (applyDelta m d).commits_per_day = m.commits_per_day := by
  unfold applyDelta
  split
  · rfl
  · cases d.additions <;> cases d.deletions <;> rfl

lemma applyDelta_first_commit (m : DevMetrics) (d : FileDelta) :
    (applyDelta m d).first_commit = m.first_commit := by
  unfold applyDelta
  split
  · rfl
  · cases d.additions <;> cases d.deletions <;> rfl

lemma applyDelta_last_commit (m : DevMetrics) (d : FileDelta) :
    (applyDelta m d).last_commit = m.last_commit := by
  unfold applyDelta
  split
  · rfl
  · cases d.additions <;> cases d.deletions <;> rfl

lemma applyDelta_pr_branch_commits (m : DevMetrics) (d : FileDelta) :
    (applyDelta m d).pr_branch_commits = m.pr_branch_commits := by
  unfold applyDelta
  split
  · rfl
  · cases d.additions <;> cases d.deletions <;> rfl

lemma applyDelta_pr_branch_days (m : DevMetrics) (d : FileDelta) :
    (applyDelta m d).pr_branch_days = m.pr_branch_days := by
  unfold applyDelta
  split
  · rfl
  · cases d.additions <;> cases d.deletions <;> rfl

lemma applyDelta_master_commits (m : DevMetrics) (d : FileDelta) :
    (applyDelta m d).master_commits = m.master_commits := by
  unfold applyDelta
  split
  · rfl
  · cases d.additions <;> cases d.deletions <;> rfl

lemma applyDelta_master_days (m : DevMetrics) (d : FileDelta) :
    (applyDelta m d).master_days = m.master_days := by
  unfold applyDelta
  split
  · rfl
  · cases d.additions <;> cases d.deletions <;> rfl

lemma applyDelta_lines_added (m : DevMetrics) (d : FileDelta) :
    (applyDelta m d).lines_added
      = m.lines_added + (if isImage d.filename then 0 else d.additions.getD 0) := by
  unfold applyDelta
  split
  · simp_all
  · cases d.additions <;> cases d.deletions <;> simp_all

lemma applyDelta_lines_removed (m : DevMetrics) (d : FileDelta) :
    (applyDelta m d).lines_removed
      = m.lines_removed + (if isImage d.filename then 0 else d.deletions.getD 0) := by
  unfold applyDelta
  split
  · simp_all
  · cases d.additions <;> cases d.deletions <;> simp_all

lemma applyDelta_files_changed (m : DevMetrics) (d : FileDelta) :
    (applyDelta m d).files_changed
      = (if isImage d.filename then (∅ : Finset String) else {d.filename})
          ∪ m.files_changed := by
  unfold applyDelta
  split
  · simp_all
  · cases d.additions <;> cases d.deletions <;>
      simp_all [Finset.insert_eq]

lemma processFiles_commits (fs : List FileEvent) (m : DevMetrics) :
    (processFiles m fs).commits = m.commits := by
  induction fs generalizing m with
  | nil => rfl
  | cons e rest ih =>
    cases e with
    | ok d => rw [processFiles, ih, applyDelta_commits]
    | err => rfl

lemma processFiles_coding_days (fs : List FileEvent) (m : DevMetrics) :
    (processFiles m fs).coding_days = m.coding_days := by
  induction fs generalizing m with
  | nil => rfl
  | cons e rest ih =>
    cases e with
    | ok d => rw [processFiles, ih, applyDelta_coding_days]
    | err => rfl

lemma processFiles_commits_per_day (fs : List FileEvent) (m : DevMetrics) :
    (processFiles m fs).commits_per_day = m.commits_per_day := by
  induction fs generalizing m with
  | nil => rfl
  | cons e rest ih =>
    cases e with
    | ok d => rw [processFiles, ih, applyDelta_commits_per_day]
    | err => rfl

lemma processFiles_first_commit (fs : List FileEvent) (m : DevMetrics) :
    (processFiles m fs).first_commit = m.first_commit := by
  induction fs generalizing m with
  | nil => rfl
  | cons e rest ih =>
    cases e with
    | ok d => rw [processFiles, ih, applyDelta_first_commit]
    | err => rfl

lemma processFiles_last_commit (fs : List FileEvent) (m : DevMetrics) :
    (processFiles m fs).last_commit = m.last_commit := by
  induction fs generalizing m with
  | nil => rfl
  | cons e rest ih =>
    cases e with
    | ok d => rw [processFiles, ih, applyDelta_last_commit]
    | err => rfl

lemma processFiles_pr_branch_commits (fs : List FileEvent) (m : DevMetrics) :
    (processFiles m fs).pr_branch_commits = m.pr_branch_commits := by
  induction fs generalizing m with
  | nil => rfl
  | cons e rest ih =>
    cases e with
    | ok d => rw [processFiles, ih, applyDelta_pr_branch_commits]
    | err => rfl

lemma processFiles_pr_branch_days (fs : List FileEvent) (m : DevMetrics) :
    (processFiles m fs).pr_branch_days = m.pr_branch_days := by
  induction fs generalizing m with
  | nil => rfl
  | cons e rest ih =>
    cases e with
    | ok d => rw [processFiles, ih, applyDelta_pr_branch_days]
    | err => rfl

lemma processFiles_master_commits (fs : List FileEvent) (m : DevMetrics) :
    (processFiles m fs).master_commits = m.master_commits := by
  induction fs generalizing m with
  | nil => rfl
  | cons e rest ih =>
    cases e with
    | ok d => rw [processFiles, ih, applyDelta_master_commits]
    | err => rfl

lemma processFiles_master_days (fs : List FileEvent) (m : DevMetrics) :
    (processFiles m fs).master_days = m.master_days := by
  induction fs generalizing m with
  | nil => rfl
  | cons e rest ih =>
    cases e with
    | ok d => rw [processFiles, ih, applyDelta_master_days]
    | err => rfl

lemma processFiles_lines_added (fs : List FileEvent) (m : DevMetrics) :
    (processFiles m fs).lines_added = m.lines_added + addSum fs := by
  induction fs generalizing m with
  | nil => rfl
  | cons e rest ih =>
    cases e with
    | ok d =>
      rw [processFiles, ih, applyDelta_lines_added, addSum, Nat.add_assoc]
    | err => rfl

lemma processFiles_lines_removed (fs : List FileEvent) (m : DevMetrics) :
    (processFiles m fs).lines_removed = m.lines_removed + delSum fs := by
  induction fs generalizing m with
  | nil => rfl
  | cons e rest ih =>
    cases e with
    | ok d =>
      rw [processFiles, ih, applyDelta_lines_removed, delSum, Nat.add_assoc]
    | err => rfl

lemma processFiles_files_changed (fs : List FileEvent) (m : DevMetrics) :
    (processFiles m fs).files_changed = filesOf fs ∪ m.files_changed := by
  induction fs generalizing m with
  | nil => simp [processFiles, filesOf]
  | cons e rest ih =>
    cases e with
    | ok d =>
      rw [processFiles, ih, applyDelta_files_changed, filesOf,
        Finset.union_left_comm, Finset.union_assoc]
    | err => simp [processFiles, filesOf]

/-- The failure-truncation behaviour of the file loop: a raised failure ends
the loop, keeping exactly the deltas already applied. -/
lemma processFiles_err (m : DevMetrics) (pre post : List FileEvent) :
    processFiles m (pre ++ FileEvent.err :: post) = processFiles m pre := by
  induction pre generalizing m with
  | nil => rfl
  | cons e rest ih =>
    cases e with
    | ok d =>
      rw [List.cons_append, processFiles, processFiles]
      exact ih (applyDelta m d)
    | err => rw [List.cons_append, processFiles, processFiles]

/-- Stage 1 of the commit-level update: the three commit counters. -/
def bumpCounts (m : DevMetrics) (cd : Int) : DevMetrics :=
  { m with
    commits := m.commits + 1
    coding_days := insert cd m.coding_days
    commits_per_day := fun d => if d = cd then m.commits_per_day d + 1 else m.commits_per_day d }

/-- Stage 2: master versus PR-branch classification via the SHA map. -/
def classifyBranch (bmap : String → Option String) (sha : String)
    (m : DevMetrics) (cd : Int) : DevMetrics :=
  if ((bmap sha).getD "Unknown") = "master" then
    { m with master_commits := m.master_commits + 1
             master_days := insert cd m.master_days }
  else
    { m with pr_branch_commits := m.pr_branch_commits + 1
             pr_branch_days := insert cd m.pr_branch_days }

/-- Stage 3: first-commit date update. -/
def recordFirst (m : DevMetrics) (cd : Int) : DevMetrics :=
  match m.first_commit with
  | none => { m with first_commit := some cd }
  | some f => if cd < f then { m with first_commit := some cd } else m

/-- Stage 4: last-commit date update. -/
def recordLast (m : DevMetrics) (cd : Int) : DevMetrics :=
  match m.last_commit with
  | none => { m with last_commit := some cd }
  | some l => if l < cd then { m with last_commit := some cd } else m

/-- The commit-level update is exactly the composite of the four stages
followed by the file loop. -/
lemma stepDev_decomp (bmap : String → Option String) (m : DevMetrics)
    (c : Commit) (cd : Int) :
    stepDev bmap m c cd
      = processFiles
          (recordLast (recordFirst (classifyBranch bmap c.sha (bumpCounts m cd) cd) cd) cd)
          c.files := rfl

lemma classifyBranch_eq (bmap : String → Option String) (sha : String)
    (m : DevMetrics) (cd : Int) :
    classifyBranch bmap sha m cd
      = { m with
          master_commits :=
            if ((bmap sha).getD "Unknown") = "master" then m.master_commits + 1
            else m.master_commits
          master_days :=
            if ((bmap sha).getD "Unknown") = "master" then insert cd m.master_days
            else m.master_days
          pr_branch_commits :=
            if ((bmap sha).getD "Unknown") = "master" then m.pr_branch_commits
            else m.pr_branch_commits + 1
          pr_branch_days :=
            if ((bmap sha).getD "Unknown") = "master" then m.pr_branch_days
            else insert cd m.pr_branch_days } := by
  unfold classifyBranch
  split <;> simp_all

lemma recordFirst_eq (m : DevMetrics) (cd : Int) :
    recordFirst m cd = { m with first_commit := some (updFirst m.first_commit cd) } := by
  obtain ⟨la, lr, co, days, cpd, fc, fst, lst, prc, prd, mc, md⟩ := m
  cases fst with
  | none => rfl
  | some f =>
    simp only [recordFirst, updFirst]
    split
    · rename_i h
      rw [min_eq_left (le_of_lt h)]
    · rename_i h
      rw [min_eq_right (le_of_not_lt h)]

lemma recordLast_eq (m : DevMetrics) (cd : Int) :
    recordLast m cd = { m with last_commit := some (updLast m.last_commit cd) } := by
  obtain ⟨la, lr, co, days, cpd, fc, fst, lst, prc, prd, mc, md⟩ := m
  cases lst with
  | none => rfl
  | some l =>
    simp only [recordLast, updLast]
    split
    · rename_i h
      rw [max_eq_left (le_of_lt h)]
    · rename_i h
      rw [max_eq_right (le_of_not_lt h)]

lemma stepDev_commits (bmap : String → Option String) (m : DevMetrics)
    (c : Commit) (cd : Int) :
    (stepDev bmap m c cd).commits = m.commits + 1 := by
  simp [stepDev_decomp, processFiles_commits, recordLast_eq, recordFirst_eq,
    classifyBranch_eq, bumpCounts]

lemma stepDev_coding_days (bmap : String → Option String) (m : DevMetrics)
    (c : Commit) (cd : Int) :
    (stepDev bmap m c cd).coding_days = insert cd m.coding_days := by
  simp [stepDev_decomp, processFiles_coding_days, recordLast_eq, recordFirst_eq,
    classifyBranch_eq, bumpCounts]

lemma stepDev_commits_per_day (bmap : String → Option String) (m : DevMetrics)
    (c : Commit) (cd : Int) :
    (stepDev bmap m c cd).commits_per_day
      = fun d => if d = cd then m.commits_per_day d + 1 else m.commits_per_day d := by
  simp [stepDev_decomp, processFiles_commits_per_day, recordLast_eq, recordFirst_eq,
    classifyBranch_eq, bumpCounts]

lemma stepDev_lines_added (bmap : String → Option String) (m : DevMetrics)
    (c : Commit) (cd : Int) :
    (stepDev bmap m c cd).lines_added = m.lines_added + addSum c.files := by
  simp [stepDev_decomp, processFiles_lines_added, recordLast_eq, recordFirst_eq,
    classifyBranch_eq, bumpCounts]

lemma stepDev_lines_removed (bmap : String → Option String) (m : DevMetrics)
    (c : Commit) (cd : Int) :
    (stepDev bmap m c cd).lines_removed = m.lines_removed + delSum c.files := by
  simp [stepDev_decomp, processFiles_lines_removed, recordLast_eq, recordFirst_eq,
    classifyBranch_eq, bumpCounts]

lemma stepDev_files_changed (bmap : String → Option String) (m : DevMetrics)
    (c : Commit) (cd : Int) :
    (stepDev bmap m c cd).files_changed = filesOf c.files ∪ m.files_changed := by
  simp [stepDev_decomp, processFiles_files_changed, recordLast_eq, recordFirst_eq,
    classifyBranch_eq, bumpCounts]

lemma stepDev_first_commit (bmap : String → Option String) (m : DevMetrics)
    (c : Commit) (cd : Int) :
    (stepDev bmap m c cd).first_commit = some (updFirst m.first_commit cd) := by
  simp [stepDev_decomp, processFiles_first_commit, recordLast_eq, recordFirst_eq,
    classifyBranch_eq, bumpCounts]

lemma stepDev_last_commit (bmap : String → Option String) (m : DevMetrics)
    (c : Commit) (cd : Int) :
    (stepDev bmap m c cd).last_commit = some (updLast m.last_commit cd) := by
  simp [stepDev_decomp, processFiles_last_commit, recordLast_eq, recordFirst_eq,
    classifyBranch_eq, bumpCounts]

lemma stepDev_master_commits (bmap : String → Option String) (m : DevMetrics)
    (c : Commit) (cd : Int) :
    (stepDev bmap m c cd).master_commits
      = if ((bmap c.sha).getD "Unknown") = "master" then m.master_commits + 1
        else m.master_commits := by
  simp [stepDev_decomp, processFiles_master_commits, recordLast_eq, recordFirst_eq,
    classifyBranch_eq, bumpCounts]

lemma stepDev_master_days (bmap : String → Option String) (m : DevMetrics)
    (c : Commit) (cd : Int) :
    (stepDev bmap m c cd).master_days
      = if ((bmap c.sha).getD "Unknown") = "master" then insert cd m.master_days
        else m.master_days := by
  simp [stepDev_decomp, processFiles_master_days, recordLast_eq, recordFirst_eq,
    classifyBranch_eq, bumpCounts]

lemma stepDev_pr_branch_commits (bmap : String → Option String) (m : DevMetrics)
    (c : Commit) (cd : Int) :
    (stepDev bmap m c cd).pr_branch_commits
      = if ((bmap c.sha).getD "Unknown") = "master" then m.pr_branch_commits
        else m.pr_branch_commits + 1 := by
  simp [stepDev_decomp, processFiles_pr_branch_commits, recordLast_eq, recordFirst_eq,
    classifyBranch_eq, bumpCounts]

lemma stepDev_pr_branch_days (bmap : String → Option String) (m : DevMetrics)
    (c : Commit) (cd : Int) :
    (stepDev bmap m c cd).pr_branch_days
      = if ((bmap c.sha).getD "Unknown") = "master" then m.pr_branch_days
        else insert cd m.pr_branch_days := by
  simp [stepDev_decomp, processFiles_pr_branch_days, recordLast_eq, recordFirst_eq,
    classifyBranch_eq, bumpCounts]

/-- The calendar date the accumulator reads for a commit (meaningful only
when the raw author record is present). -/
def dateOf (c : Commit) : Int :=
  match c.commit_author with
  | some ga => ga.date
  | none => 0

lemma countedFor_iff (sd : Int) (a : String) (c : Commit) :
    countedFor sd a c = true
      ↔ (countedCommit sd c = true ∧ resolveAuthor c = a) := by
  unfold countedFor
  simp [Bool.and_eq_true, beq_iff_eq]

lemma countedCommit_iff (sd : Int) (c : Commit) :
    countedCommit sd c = true
      ↔ ∃ ga, c.commit_author = some ga ∧ sd ≤ ga.date := by
  unfold countedCommit
  cases hc : c.commit_author <;> simp

lemma totalStep_not_counted (sd : Int) (bmap : String → Option String)
    (st : AccState) (c : Commit) (h : countedCommit sd c = false) :
    totalStep sd bmap st c = st := by
  unfold totalStep
  unfold countedCommit at h
  cases hc : c.commit_author with
  | none => rfl
  | some ga =>
    rw [hc] at h
    simp only [decide_eq_false_iff_not] at h
    simp [h]

lemma totalStep_counted (sd : Int) (bmap : String → Option String)
    (st : AccState) (c : Commit) (ga : GitAuthor)
    (hga : c.commit_author = some ga) (hd : sd ≤ ga.date) :
    totalStep sd bmap st c
      = { authors := touchAuthor st.authors (resolveAuthor c)
          metrics := fun x =>
            if x = resolveAuthor c then
              stepDev bmap (st.metrics (resolveAuthor c)) c ga.date
            else st.metrics x } := by
  unfold totalStep
  rw [hga]
  simp [hd]

lemma processCommit_totalStep (sd : Int) (bmap : String → Option String)
    (st : AccState) (c : Commit) (st1 : AccState)
    (h : processCommit sd bmap st c = some st1) :
    totalStep sd bmap st c = st1 := by
  unfold processCommit at h
  unfold totalStep
  cases hc : c.commit_author with
  | none => rw [hc] at h; exact absurd h (by simp)
  | some ga =>
    rw [hc] at h
    by_cases hd : sd ≤ ga.date
    · simp only [if_pos hd] at h ⊢
      exact Option.some.inj h
    · simp only [if_neg hd] at h ⊢
      exact Option.some.inj h

/-- A successful accumulator run computes the fold of the total step. -/
lemma runAccum_some_eq (sd : Int) (bmap : String → Option String) :
    ∀ (cs : List Commit) (st st2 : AccState),
      runAccum sd bmap st cs = some st2
        → st2 = cs.foldl (totalStep sd bmap) st := by
  intro cs
  induction cs with
  | nil =>
    intro st st2 h
    simp only [runAccum] at h
    exact (Option.some.inj h).symm
  | cons c cs ih =>
    intro st st2 h
    simp only [runAccum] at h
    cases hp : processCommit sd bmap st c with
    | none => rw [hp] at h; exact absurd h (by simp)
    | some st1 =>
      rw [hp] at h
      rw [List.foldl_cons, processCommit_totalStep sd bmap st c st1 hp]
      exact ih st1 st2 h

/-- A run over commits that all carry a raw author record succeeds and
computes the fold of the total step. -/
lemma runAccum_total (sd : Int) (bmap : String → Option String) :
    ∀ (cs : List Commit) (st : AccState),
      (∀ c ∈ cs, c.commit_author.isSome)
        → runAccum sd bmap st cs = some (cs.foldl (totalStep sd bmap) st) := by
  intro cs
  induction cs with
  | nil => intro st _; rfl
  | cons c cs ih =>
    intro st hall
    have hc : c.commit_author.isSome := hall c (List.mem_cons_self c cs)
    obtain ⟨ga, hga⟩ := Option.isSome_iff_exists.mp hc
    show (match processCommit sd bmap st c with
          | none => none
          | some st2 => runAccum sd bmap st2 cs)
        = some ((c :: cs).foldl (totalStep sd bmap) st)
    have hpc : processCommit sd bmap st c = some (totalStep sd bmap st c) := by
      unfold processCommit totalStep
      rw [hga]
      by_cases hd : sd ≤ ga.date <;> simp [hd]
    rw [hpc, List.foldl_cons]
    exact ih (totalStep sd bmap st c) (fun c2 h2 => hall c2 (List.mem_cons_of_mem c h2))

lemma totalStep_metrics_other (sd : Int) (bmap : String → Option String)
    (st : AccState) (c : Commit) (a : String) (h : countedFor sd a c = false) :
    (totalStep sd bmap st c).metrics a = st.metrics a := by
  cases hcc : countedCommit sd c with
  | false => rw [totalStep_not_counted sd bmap st c hcc]
  | true =>
    obtain ⟨ga, hga, hd⟩ := (countedCommit_iff sd c).mp hcc
    rw [totalStep_counted sd bmap st c ga hga hd]
    have hne : ¬ a = resolveAuthor c := by
      intro hcontra
      rw [countedFor, hcc] at h
      simp [beq_iff_eq, hcontra] at h
    simp [hne]

lemma totalStep_metrics_self (sd : Int) (bmap : String → Option String)
    (st : AccState) (c : Commit) (ga : GitAuthor)
    (hga : c.commit_author = some ga) (hd : sd ≤ ga.date) :
    (totalStep sd bmap st c).metrics (resolveAuthor c)
      = stepDev bmap (st.metrics (resolveAuthor c)) c ga.date := by
  rw [totalStep_counted sd bmap st c ga hga hd]
  simp

lemma totalStep_authors (sd : Int) (bmap : String → Option String)
    (st : AccState) (c : Commit) :
    (totalStep sd bmap st c).authors
      = if countedCommit sd c then touchAuthor st.authors (resolveAuthor c)
        else st.authors := by
  cases hcc : countedCommit sd c with
  | false => rw [totalStep_not_counted sd bmap st c hcc]; simp
  | true =>
    obtain ⟨ga, hga, hd⟩ := (countedCommit_iff sd c).mp hcc
    rw [totalStep_counted sd bmap st c ga hga hd]
    simp

lemma mem_touchAuthor (l : List String) (a x : String) :
    x ∈ touchAuthor l a ↔ x ∈ l ∨ x = a := by
  unfold touchAuthor
  split
  · rename_i h
    constructor
    · exact fun hx => Or.inl hx
    · rintro (hx | rfl)
      · exact hx
      · exact h
  · simp

lemma nodup_touchAuthor (l : List String) (a : String) (h : l.Nodup) :
    (touchAuthor l a).Nodup := by
  unfold touchAuthor
  split
  · exact h
  · rename_i hna
    simp [List.nodup_append, h, hna]

lemma totalStep_metrics_commits (sd : Int) (bmap : String → Option String)
    (st : AccState) (c : Commit) (a : String) :
    ((totalStep sd bmap st c).metrics a).commits
      = (st.metrics a).commits + (if countedFor sd a c then 1 else 0) := by
  cases hcf : countedFor sd a c with
  | false => rw [totalStep_metrics_other sd bmap st c a hcf]; simp
  | true =>
    obtain ⟨hcc, hres⟩ := (countedFor_iff sd a c).mp hcf
    obtain ⟨ga, hga, hd⟩ := (countedCommit_iff sd c).mp hcc
    subst hres
    rw [totalStep_metrics_self sd bmap st c ga hga hd, stepDev_commits]
    simp

lemma totalStep_metrics_lines_added (sd : Int) (bmap : String → Option String)
    (st : AccState) (c : Commit) (a : String) :
    ((totalStep sd bmap st c).metrics a).lines_added
      = (st.metrics a).lines_added
          + (if countedFor sd a c then addSum c.files else 0) := by
  cases hcf : countedFor sd a c with
  | false => rw [totalStep_metrics_other sd bmap st c a hcf]; simp
  | true =>
    obtain ⟨hcc, hres⟩ := (countedFor_iff sd a c).mp hcf
    obtain ⟨ga, hga, hd⟩ := (countedCommit_iff sd c).mp hcc
    subst hres
    rw [totalStep_metrics_self sd bmap st c ga hga hd, stepDev_lines_added]
    simp

lemma totalStep_metrics_lines_removed (sd : Int) (bmap : String → Option String)
    (st : AccState) (c : Commit) (a : String) :
    ((totalStep sd bmap st c).metrics a).lines_removed
      = (st.metrics a).lines_removed
          + (if countedFor sd a c then delSum c.files else 0) := by
  cases hcf : countedFor sd a c with
  | false => rw [totalStep_metrics_other sd bmap st c a hcf]; simp
  | true =>
    obtain ⟨hcc, hres⟩ := (countedFor_iff sd a c).mp hcf
    obtain ⟨ga, hga, hd⟩ := (countedCommit_iff sd c).mp hcc
    subst hres
    rw [totalStep_metrics_self sd bmap st c ga hga hd, stepDev_lines_removed]
    simp

lemma totalStep_metrics_files_changed (sd : Int) (bmap : String → Option String)
    (st : AccState) (c : Commit) (a : String) :
    ((totalStep sd bmap st c).metrics a).files_changed
      = (if countedFor sd a c then filesOf c.files else ∅)
          ∪ (st.metrics a).files_changed := by
  cases hcf : countedFor sd a c with
  | false => rw [totalStep_metrics_other sd bmap st c a hcf]; simp
  | true =>
    obtain ⟨hcc, hres⟩ := (countedFor_iff sd a c).mp hcf
    obtain ⟨ga, hga, hd⟩ := (countedCommit_iff sd c).mp hcc
    subst hres
    rw [totalStep_metrics_self sd bmap st c ga hga hd, stepDev_files_changed]
    simp

lemma totalStep_metrics_first (sd : Int) (bmap : String → Option String)
    (st : AccState) (c : Commit) (a : String) :
    ((totalStep sd bmap st c).metrics a).first_commit
      = if countedFor sd a c then
          some (updFirst ((st.metrics a).first_commit) (dateOf c))
        else (st.metrics a).first_commit := by
  cases hcf : countedFor sd a c with
  | false => rw [totalStep_metrics_other sd bmap st c a hcf]; simp
  | true =>
    obtain ⟨hcc, hres⟩ := (countedFor_iff sd a c).mp hcf
    obtain ⟨ga, hga, hd⟩ := (countedCommit_iff sd c).mp hcc
    subst hres
    rw [totalStep_metrics_self sd bmap st c ga hga hd, stepDev_first_commit]
    simp [dateOf, hga]

lemma totalStep_metrics_last (sd : Int) (bmap : String → Option String)
    (st : AccState) (c : Commit) (a : String) :
    ((totalStep sd bmap st c).metrics a).last_commit
      = if countedFor sd a c then
          some (updLast ((st.metrics a).last_commit) (dateOf c))
        else (st.metrics a).last_commit := by
  cases hcf : countedFor sd a c with
  | false => rw [totalStep_metrics_other sd bmap st c a hcf]; simp
  | true =>
    obtain ⟨hcc, hres⟩ := (countedFor_iff sd a c).mp hcf
    obtain ⟨ga, hga, hd⟩ := (countedCommit_iff sd c).mp hcc
    subst hres
    rw [totalStep_metrics_self sd bmap st c ga hga hd, stepDev_last_commit]
    simp [dateOf, hga]

/-- Per-developer commit count over a run: one per counted commit whose
resolved identity is that developer. -/
lemma run_commits (sd : Int) (bmap : String → Option String) :
    ∀ (cs : List Commit) (st : AccState) (a : String),
      ((cs.foldl (totalStep sd bmap) st).metrics a).commits
        = (st.metrics a).commits + cs.countP (countedFor sd a) := by
  intro cs
  induction cs with
  | nil => intro st a; simp
  | cons c cs ih =>
    intro st a
    rw [List.foldl_cons, ih, totalStep_metrics_commits, List.countP_cons]
    by_cases h : countedFor sd a c <;> simp [h] <;> omega

/-- Per-developer added lines over a run: the file-loop contribution of each
counted commit attributed to that developer. -/
lemma run_lines_added (sd : Int) (bmap : String → Option String) :
    ∀ (cs : List Commit) (st : AccState) (a : String),
      ((cs.foldl (totalStep sd bmap) st).metrics a).lines_added
        = (st.metrics a).lines_added
            + ((cs.filter (countedFor sd a)).map (fun c => addSum c.files)).sum := by
  intro cs
  induction cs with
  | nil => intro st a; simp
  | cons c cs ih =>
    intro st a
    rw [List.foldl_cons, ih, totalStep_metrics_lines_added, List.filter_cons]
    by_cases h : countedFor sd a c <;> simp [h] <;> omega

/-- Per-developer removed lines over a run. -/
lemma run_lines_removed (sd : Int) (bmap : String → Option String) :
    ∀ (cs : List Commit) (st : AccState) (a : String),
      ((cs.foldl (totalStep sd bmap) st).metrics a).lines_removed
        = (st.metrics a).lines_removed
            + ((cs.filter (countedFor sd a)).map (fun c => delSum c.files)).sum := by
  intro cs
  induction cs with
  | nil => intro st a; simp
  | cons c cs ih =>
    intro st a
    rw [List.foldl_cons, ih, totalStep_metrics_lines_removed, List.filter_cons]
    by_cases h : countedFor sd a c <;> simp [h] <;> omega

/-- Filenames recorded by the file loop are never image files. -/
lemma filesOf_not_image (fs : List FileEvent) :
    ∀ f ∈ filesOf fs, isImage f = false := by
  induction fs with
  | nil => simp [filesOf]
  | cons e rest ih =>
    cases e with
    | err => simp [filesOf]
    | ok d =>
      intro f hf
      rw [filesOf] at hf
      rcases Finset.mem_union.mp hf with hl | hr
      · by_cases hi : isImage d.filename
        · rw [if_pos hi] at hl
          exact absurd hl (Finset.not_mem_empty f)
        · rw [if_neg hi] at hl
          rw [Finset.mem_singleton.mp hl]
          exact Bool.eq_false_iff.mpr hi
      · exact ih f hr

/-- No image filename ever enters a developer's files-changed set. -/
lemma run_files_not_image (sd : Int) (bmap : String → Option String) :
    ∀ (cs : List Commit) (st : AccState)
      (hst : ∀ a f, f ∈ (st.metrics a).files_changed → isImage f = false)
      (a : String) (f : String),
      f ∈ ((cs.foldl (totalStep sd bmap) st).metrics a).files_changed
        → isImage f = false := by
  intro cs
  induction cs with
  | nil => intro st hst a f hf; exact hst a f hf
  | cons c cs ih =>
    intro st hst a f hf
    refine ih (totalStep sd bmap st c) ?_ a f hf
    intro a2 f2 hf2
    rw [totalStep_metrics_files_changed] at hf2
    rcases Finset.mem_union.mp hf2 with hl | hr
    · by_cases hcf : countedFor sd a2 c
      · rw [if_pos hcf] at hl
        exact filesOf_not_image c.files f2 hl
      · rw [if_neg hcf] at hl
        exact absurd hl (Finset.not_mem_empty f2)
    · exact hst a2 f2 hr

/-- A developer key exists after a run exactly when it was there before or
some commit of the run was counted for it. -/
lemma run_mem_authors (sd : Int) (bmap : String → Option String) :
    ∀ (cs : List Commit) (st : AccState) (a : String),
      a ∈ (cs.foldl (totalStep sd bmap) st).authors
        ↔ a ∈ st.authors ∨ ∃ c ∈ cs, countedFor sd a c = true := by
  intro cs
  induction cs with
  | nil => intro st a; simp
  | cons c cs ih =>
    intro st a
    rw [List.foldl_cons, ih, totalStep_authors]
    by_cases hcc : countedCommit sd c
    · rw [if_pos hcc, mem_touchAuthor]
      constructor
      · rintro ((h | rfl) | hex)
        · exact Or.inl h
        · exact Or.inr ⟨c, List.mem_cons_self c cs,
            (countedFor_iff sd (resolveAuthor c) c).mpr ⟨hcc, rfl⟩⟩
        · obtain ⟨c2, hc2, hcf⟩ := hex
          exact Or.inr ⟨c2, List.mem_cons_of_mem c hc2, hcf⟩
      · rintro (h | ⟨c2, hc2, hcf⟩)
        · exact Or.inl (Or.inl h)
        · rcases List.mem_cons.mp hc2 with rfl | hmem
          · exact Or.inl (Or.inr ((countedFor_iff sd a c2).mp hcf).2.symm)
          · exact Or.inr ⟨c2, hmem, hcf⟩
    · rw [if_neg hcc]
      constructor
      · rintro (h | ⟨c2, hc2, hcf⟩)
        · exact Or.inl h
        · exact Or.inr ⟨c2, List.mem_cons_of_mem c hc2, hcf⟩
      · rintro (h | ⟨c2, hc2, hcf⟩)
        · exact Or.inl h
        · rcases List.mem_cons.mp hc2 with rfl | hmem
          · exact absurd ((countedFor_iff sd a c2).mp hcf).1 (by simp [hcc])
          · exact Or.inr ⟨c2, hmem, hcf⟩

/-- Runs keep the developer key list duplicate-free. -/
lemma run_nodup (sd : Int) (bmap : String → Option String) :
    ∀ (cs : List Commit) (st : AccState),
      st.authors.Nodup → (cs.foldl (totalStep sd bmap) st).authors.Nodup := by
  intro cs
  induction cs with
  | nil => intro st h; exact h
  | cons c cs ih =>
    intro st h
    rw [List.foldl_cons]
    refine ih _ ?_
    rw [totalStep_authors]
    split
    · exact nodup_touchAuthor _ _ h
    · exact h

/-- Identities without a key keep the defaultdict default value. -/
lemma run_default (sd : Int) (bmap : String → Option String) :
    ∀ (cs : List Commit) (st : AccState),
      (∀ x, x ∉ st.authors → st.metrics x = devDefault) →
      ∀ x, x ∉ (cs.foldl (totalStep sd bmap) st).authors
        → (cs.foldl (totalStep sd bmap) st).metrics x = devDefault := by
  intro cs
  induction cs with
  | nil => intro st h; exact h
  | cons c cs ih =>
    intro st h
    rw [List.foldl_cons]
    refine ih _ ?_
    intro x hx
    have hxa : x ∉ st.authors ∧ ¬(countedCommit sd c = true ∧ x = resolveAuthor c) := by
      rw [totalStep_authors] at hx
      by_cases hcc : countedCommit sd c
      · rw [if_pos hcc, mem_touchAuthor] at hx
        push_neg at hx
        exact ⟨hx.1, fun hpair => hx.2 hpair.2⟩
      · rw [if_neg hcc] at hx
        exact ⟨hx, fun hpair => (by simp [hcc] : ¬countedCommit sd c = true) hpair.1⟩
    have hcf : countedFor sd x c = false := by
      rw [Bool.eq_false_iff]
      intro hcf
      obtain ⟨h1, h2⟩ := (countedFor_iff sd x c).mp hcf
      exact hxa.2 ⟨h1, h2.symm⟩
    rw [totalStep_metrics_other sd bmap st c x hcf]
    exact h x hxa.1

/-- A developer with zero counted commits has no first or last commit date. -/
lemma run_first_last_of_zero (sd : Int) (bmap : String → Option String) :
    ∀ (cs : List Commit) (st : AccState),
      (∀ a, (st.metrics a).commits = 0 →
          (st.metrics a).first_commit = none ∧ (st.metrics a).last_commit = none) →
      ∀ a, ((cs.foldl (totalStep sd bmap) st).metrics a).commits = 0 →
        ((cs.foldl (totalStep sd bmap) st).metrics a).first_commit = none ∧
          ((cs.foldl (totalStep sd bmap) st).metrics a).last_commit = none := by
  intro cs
  induction cs with
  | nil => intro st h; exact h
  | cons c cs ih =>
    intro st h
    rw [List.foldl_cons]
    refine ih _ ?_
    intro a h0
    rw [totalStep_metrics_commits] at h0
    by_cases hcf : countedFor sd a c
    · rw [if_pos hcf] at h0
      omega
    · rw [if_neg hcf] at h0
      simp only [Nat.add_zero] at h0
      rw [totalStep_metrics_first, totalStep_metrics_last, if_neg hcf, if_neg hcf]
      exact h a h0

/-- Summing a per-key function bumped at one key of a duplicate-free list. -/
lemma sum_map_bump (l : List String) (f : String → Nat) (a : String) (n : Nat)
    (hl : l.Nodup) (ha : a ∈ l) :
    (l.map (fun x => if x = a then f x + n else f x)).sum = (l.map f).sum + n := by
  induction l with
  | nil => cases ha
  | cons x rest ih =>
    rw [List.map_cons, List.map_cons, List.sum_cons, List.sum_cons]
    rcases List.mem_cons.mp ha with rfl | hmem
    · rw [if_pos rfl]
      have hnot : a ∉ rest := (List.nodup_cons.mp hl).1
      have hres : rest.map (fun y => if y = a then f y + n else f y) = rest.map f := by
        refine List.map_congr_left (fun y hy => if_neg (fun he => hnot ?_))
        rw [← he]
        exact hy
      rw [hres]
      omega
    · have hxa : ¬ x = a := fun he => (List.nodup_cons.mp hl).1 (he ▸ hmem)
      rw [if_neg hxa, ih (List.nodup_cons.mp hl).2 hmem]
      omega

/-- One step changes the team-wide commit total by exactly one when the
commit is counted, by nothing otherwise. -/
lemma teamTotalCommits_step (sd : Int) (bmap : String → Option String)
    (st : AccState) (c : Commit)
    (hnd : st.authors.Nodup)
    (hdef : ∀ x, x ∉ st.authors → st.metrics x = devDefault) :
    teamTotalCommits (totalStep sd bmap st c)
      = teamTotalCommits st + (if countedCommit sd c then 1 else 0) := by
  by_cases hcc : countedCommit sd c
  · obtain ⟨ga, hga, hd⟩ := (countedCommit_iff sd c).mp hcc
    rw [totalStep_counted sd bmap st c ga hga hd, if_pos hcc]
    unfold teamTotalCommits
    simp only
    by_cases hr : resolveAuthor c ∈ st.authors
    · rw [touchAuthor, if_pos hr]
      have hmap : st.authors.map
            (fun a => (if a = resolveAuthor c
              then stepDev bmap (st.metrics (resolveAuthor c)) c ga.date
              else st.metrics a).commits)
          = st.authors.map
            (fun a => if a = resolveAuthor c then (st.metrics a).commits + 1
              else (st.metrics a).commits) := by
        refine List.map_congr_left (fun a _ => ?_)
        by_cases hx : a = resolveAuthor c
        · rw [if_pos hx, if_pos hx, stepDev_commits, hx]
        · rw [if_neg hx, if_neg hx]
      rw [hmap, sum_map_bump st.authors (fun a => (st.metrics a).commits)
        (resolveAuthor c) 1 hnd hr]
    · rw [touchAuthor, if_neg hr, List.map_append, List.sum_append]
      have hmap : st.authors.map
            (fun a => (if a = resolveAuthor c
              then stepDev bmap (st.metrics (resolveAuthor c)) c ga.date
              else st.metrics a).commits)
          = st.authors.map (fun a => (st.metrics a).commits) := by
        refine List.map_congr_left (fun a hmem => ?_)
        have hx : ¬ a = resolveAuthor c := fun he => hr (he ▸ hmem)
        rw [if_neg hx]
      rw [hmap]
      have hone : ([resolveAuthor c].map
            (fun a => (if a = resolveAuthor c
              then stepDev bmap (st.metrics (resolveAuthor c)) c ga.date
              else st.metrics a).commits)).sum = 1 := by
        rw [List.map_singleton, List.sum_singleton, if_pos rfl, stepDev_commits,
          hdef (resolveAuthor c) hr]
        rfl
      rw [hone]
  · rw [totalStep_not_counted sd bmap st c (Bool.eq_false_iff.mpr hcc), if_neg hcc,
      Nat.add_zero]

/-- The team-wide commit total over a run counts each counted commit
occurrence once per occurrence in the delivered stream. -/
lemma run_teamTotalCommits (sd : Int) (bmap : String → Option String) :
    ∀ (cs : List Commit) (st : AccState),
      st.authors.Nodup →
      (∀ x, x ∉ st.authors → st.metrics x = devDefault) →
      teamTotalCommits (cs.foldl (totalStep sd bmap) st)
        = teamTotalCommits st + cs.countP (countedCommit sd) := by
  intro cs
  induction cs with
  | nil => intro st _ _; simp
  | cons c cs ih =>
    intro st hnd hdef
    rw [List.foldl_cons, List.countP_cons]
    have hnd2 : (totalStep sd bmap st c).authors.Nodup := by
      rw [totalStep_authors]
      split
      · exact nodup_touchAuthor _ _ hnd
      · exact hnd
    have hdef2 : ∀ x, x ∉ (totalStep sd bmap st c).authors
        → (totalStep sd bmap st c).metrics x = devDefault := by
      have := run_default sd bmap [c] st hdef
      simpa using this
    rw [ih (totalStep sd bmap st c) hnd2 hdef2,
      teamTotalCommits_step sd bmap st c hnd hdef]
    by_cases h : countedCommit sd c <;> simp [h] <;> omega

/-- Commit-level updates to one developer's counters commute. -/
lemma stepDev_comm (bmap : String → Option String) (m : DevMetrics)
    (c1 c2 : Commit) (d1 d2 : Int) :
    stepDev bmap (stepDev bmap m c1 d1) c2 d2
      = stepDev bmap (stepDev bmap m c2 d2) c1 d1 := by
  refine DevMetrics.ext ?_ ?_ ?_ ?_ ?_ ?_ ?_ ?_ ?_ ?_ ?_ ?_
  · simp only [stepDev_lines_added]
    omega
  · simp only [stepDev_lines_removed]
    omega
  · simp only [stepDev_commits]
  · simp only [stepDev_coding_days]
    exact Finset.Insert.comm d2 d1 m.coding_days
  · simp only [stepDev_commits_per_day]
    funext d
    split_ifs <;> omega
  · simp only [stepDev_files_changed]
    rw [Finset.union_left_comm]
  · simp only [stepDev_first_commit]
    cases hm : m.first_commit <;> simp [updFirst, min_comm, min_left_comm]
  · simp only [stepDev_last_commit]
    cases hm : m.last_commit <;> simp [updLast, max_comm, max_left_comm]
  · simp only [stepDev_pr_branch_commits]
    split_ifs <;> omega
  · simp only [stepDev_pr_branch_days]
    split_ifs <;> simp [Finset.Insert.comm]
  · simp only [stepDev_master_commits]
    split_ifs <;> omega
  · simp only [stepDev_master_days]
    split_ifs <;> simp [Finset.Insert.comm]

/-- Two accumulator states with the same counters and the same developer key
set (up to insertion order). -/
def stateEquiv (s t : AccState) : Prop :=
  s.metrics = t.metrics ∧ s.authors.Perm t.authors

lemma stateEquiv_refl (s : AccState) : stateEquiv s s :=
  ⟨rfl, List.Perm.refl s.authors⟩

lemma stateEquiv_trans {s t u : AccState} (h1 : stateEquiv s t)
    (h2 : stateEquiv t u) : stateEquiv s u :=
  ⟨h1.1.trans h2.1, h1.2.trans h2.2⟩

/-- One accumulator step respects the state equivalence. -/
lemma stateEquiv_step (sd : Int) (bmap : String → Option String)
    {s t : AccState} (h : stateEquiv s t) (c : Commit) :
    stateEquiv (totalStep sd bmap s c) (totalStep sd bmap t c) := by
  obtain ⟨hm, hp⟩ := h
  by_cases hcc : countedCommit sd c
  · obtain ⟨ga, hga, hd⟩ := (countedCommit_iff sd c).mp hcc
    rw [totalStep_counted sd bmap s c ga hga hd,
      totalStep_counted sd bmap t c ga hga hd]
    constructor
    · simp only [hm]
    · simp only
      unfold touchAuthor
      have hmem : resolveAuthor c ∈ s.authors ↔ resolveAuthor c ∈ t.authors :=
        hp.mem_iff
      by_cases hr : resolveAuthor c ∈ s.authors
      · rw [if_pos hr, if_pos (hmem.mp hr)]
        exact hp
      · rw [if_neg hr, if_neg (fun h2 => hr (hmem.mpr h2))]
        exact List.Perm.append_right [resolveAuthor c] hp
  · rw [totalStep_not_counted sd bmap s c (Bool.eq_false_iff.mpr hcc),
      totalStep_not_counted sd bmap t c (Bool.eq_false_iff.mpr hcc)]
    exact ⟨hm, hp⟩

/-- Key creation commutes up to permutation of the key list. -/
lemma touch_swap (l : List String) (a b : String) :
    (touchAuthor (touchAuthor l a) b).Perm (touchAuthor (touchAuthor l b) a) := by
  by_cases hab : a = b
  · subst hab
    exact List.Perm.refl _
  · have hba : ¬ b = a := fun h => hab h.symm
    unfold touchAuthor
    by_cases ha : a ∈ l <;> by_cases hb : b ∈ l
    · simp only [if_pos ha, if_pos hb]
      exact List.Perm.refl _
    · simp only [if_pos ha, if_neg hb, List.mem_append, List.mem_singleton, ha,
        true_or, if_true, hb, false_or, hba, if_false]
      exact List.Perm.refl _
    · simp only [if_neg ha, if_pos hb, List.mem_append, List.mem_singleton, hb,
        true_or, if_true, ha, false_or, hab, if_false]
      exact List.Perm.refl _
    · simp only [if_neg ha, if_neg hb, List.mem_append, List.mem_singleton]
      have c1 : ¬ (b ∈ l ∨ b = a) := by
        rintro (h | h)
        · exact hb h
        · exact hba h
      have c2 : ¬ (a ∈ l ∨ a = b) := by
        rintro (h | h)
        · exact ha h
        · exact hab h
      rw [if_neg c1, if_neg c2, List.append_assoc, List.append_assoc]
      exact List.Perm.append_left l (List.Perm.swap a b []).symm

/-- Processing two commits in either order yields equivalent states. -/
lemma totalStep_swap (sd : Int) (bmap : String → Option String)
    (st : AccState) (c1 c2 : Commit) :
    stateEquiv (totalStep sd bmap (totalStep sd bmap st c1) c2)
      (totalStep sd bmap (totalStep sd bmap st c2) c1) := by
  by_cases h1 : countedCommit sd c1
  case neg =>
    rw [totalStep_not_counted sd bmap st c1 (Bool.eq_false_iff.mpr h1),
      totalStep_not_counted sd bmap (totalStep sd bmap st c2) c1
        (Bool.eq_false_iff.mpr h1)]
    exact stateEquiv_refl _
  by_cases h2 : countedCommit sd c2
  case neg =>
    rw [totalStep_not_counted sd bmap st c2 (Bool.eq_false_iff.mpr h2),
      totalStep_not_counted sd bmap (totalStep sd bmap st c1) c2
        (Bool.eq_false_iff.mpr h2)]
    exact stateEquiv_refl _
  obtain ⟨ga1, hga1, hd1⟩ := (countedCommit_iff sd c1).mp h1
  obtain ⟨ga2, hga2, hd2⟩ := (countedCommit_iff sd c2).mp h2
  constructor
  · rw [totalStep_counted sd bmap st c1 ga1 hga1 hd1,
      totalStep_counted sd bmap st c2 ga2 hga2 hd2]
    rw [totalStep_counted sd bmap _ c2 ga2 hga2 hd2,
      totalStep_counted sd bmap _ c1 ga1 hga1 hd1]
    funext x
    by_cases h12 : resolveAuthor c1 = resolveAuthor c2 <;>
      by_cases hx1 : x = resolveAuthor c1 <;>
        by_cases hx2 : x = resolveAuthor c2 <;>
          simp_all [stepDev_comm]
  · rw [totalStep_counted sd bmap st c1 ga1 hga1 hd1,
      totalStep_counted sd bmap st c2 ga2 hga2 hd2]
    rw [totalStep_counted sd bmap _ c2 ga2 hga2 hd2,
      totalStep_counted sd bmap _ c1 ga1 hga1 hd1]
    exact touch_swap st.authors (resolveAuthor c1) (resolveAuthor c2)

/-- Folding over the same commits from equivalent states stays equivalent. -/
lemma stateEquiv_fold (sd : Int) (bmap : String → Option String) :
    ∀ (cs : List Commit) {s t : AccState}, stateEquiv s t →
      stateEquiv (cs.foldl (totalStep sd bmap) s) (cs.foldl (totalStep sd bmap) t) := by
  intro cs
  induction cs with
  | nil => intro s t h; exact h
  | cons c cs ih =>
    intro s t h
    rw [List.foldl_cons, List.foldl_cons]
    exact ih (stateEquiv_step sd bmap h c)

/-- Folding two permuted commit streams yields equivalent states. -/
lemma fold_perm_equiv (sd : Int) (bmap : String → Option String)
    {l1 l2 : List Commit} (hperm : l1.Perm l2) :
    ∀ st : AccState,
      stateEquiv (l1.foldl (totalStep sd bmap) st) (l2.foldl (totalStep sd bmap) st) := by
  induction hperm with
  | nil => intro st; exact stateEquiv_refl _
  | cons x p ih =>
    intro st
    rw [List.foldl_cons, List.foldl_cons]
    exact ih (totalStep sd bmap st x)
  | swap x y l =>
    intro st
    rw [List.foldl_cons, List.foldl_cons, List.foldl_cons, List.foldl_cons]
    exact stateEquiv_fold sd bmap l (totalStep_swap sd bmap st y x)
  | trans p1 p2 ih1 ih2 =>
    intro st
    exact stateEquiv_trans (ih1 st) (ih2 st)

/-- Appending per-key blocks by a fold is flattening the mapped blocks. -/
lemma foldl_append_blocks {β : Type} (l : List String) (g : String → List β)
    (init : List β) :
    l.foldl (fun acc x => acc ++ g x) init = init ++ (l.map g).flatten := by
  induction l generalizing init with
  | nil => simp
  | cons x rest ih =>
    rw [List.foldl_cons, ih, List.map_cons, List.flatten_cons, List.append_assoc]

/-- The daily activity table as the flattening of per-developer blocks. -/
lemma dailyRows_eq (endDay : Int) (st : AccState) :
    dailyRows endDay st
      = (st.authors.map (fun a => (List.range 7).map
          (fun (i : Nat) => (a, endDay - (i : Int),
            (st.metrics a).commits_per_day (endDay - (i : Int)))))).flatten := by
  unfold dailyRows
  rw [foldl_append_blocks]
  rfl

/-- Filtering flattened per-key blocks by one key of a duplicate-free key
list keeps exactly that key's block. -/
lemma filter_flatten_blocks (l : List String)
    (g : String → List (String × Int × Nat)) (a : String)
    (hg : ∀ x, ∀ r ∈ g x, r.1 = x)
    (hnd : l.Nodup) (ha : a ∈ l) :
    ((l.map g).flatten).filter (fun r => decide (r.1 = a)) = g a := by
  induction l with
  | nil => cases ha
  | cons x rest ih =>
    rw [List.map_cons, List.flatten_cons, List.filter_append]
    rcases List.mem_cons.mp ha with rfl | hmem
    · have h1 : (g a).filter (fun r => decide (r.1 = a)) = g a :=
        List.filter_eq_self.mpr (fun r hr => by simp [hg a r hr])
      have hnot : a ∉ rest := (List.nodup_cons.mp hnd).1
      have h2 : ((rest.map g).flatten).filter (fun r => decide (r.1 = a)) = [] := by
        refine List.filter_eq_nil_iff.mpr (fun r hr => ?_)
        obtain ⟨lb, hlb, hrb⟩ := List.mem_flatten.mp hr
        obtain ⟨y, hy, hylb⟩ := List.mem_map.mp hlb
        have hry : r.1 = y := hg y r (hylb ▸ hrb)
        have hya : ¬ y = a := fun he => hnot (he ▸ hy)
        simp [hry, hya]
      rw [h1, h2, List.append_nil]
    · have hxa : ¬ x = a := fun he => (List.nodup_cons.mp hnd).1 (he ▸ hmem)
      have h1 : (g x).filter (fun r => decide (r.1 = a)) = [] :=
        List.filter_eq_nil_iff.mpr (fun r hr => by simp [hg x r hr, hxa])
      rw [h1, List.nil_append]
      exact ih (List.nodup_cons.mp hnd).2 hmem

/-- The fold of unions computed by the team coding-days row is the finite
union over the key set. -/
lemma foldl_union_eq (l : List String) (g : String → Finset Int)
    (init : Finset Int) :
    l.foldl (fun acc a => acc ∪ g a) init = init ∪ l.toFinset.biUnion g := by
  induction l generalizing init with
  | nil => simp
  | cons x rest ih =>
    rw [List.foldl_cons, ih, List.toFinset_cons, Finset.biUnion_insert,
      Finset.union_assoc]

/-- On a failure-free event stream the file-loop line total is the spec-side
sum over all non-image deltas. -/
lemma addSum_sumAdds (fs : List FileEvent) (h : allOk fs = true) :
    addSum fs = sumAdds (deltaList fs) := by
  induction fs with
  | nil => rfl
  | cons e rest ih =>
    cases e with
    | err => exact absurd h (by simp [allOk])
    | ok d =>
      have hrest : allOk rest = true := h
      rw [addSum, deltaList, ih hrest]
      unfold sumAdds
      by_cases hi : isImage d.filename <;> simp [hi, List.filter_cons]

/-- Deletions counterpart of `addSum_sumAdds`. -/
lemma delSum_sumDels (fs : List FileEvent) (h : allOk fs = true) :
    delSum fs = sumDels (deltaList fs) := by
  induction fs with
  | nil => rfl
  | cons e rest ih =>
    cases e with
    | err => exact absurd h (by simp [allOk])
    | ok d =>
      have hrest : allOk rest = true := h
      rw [delSum, deltaList, ih hrest]
      unfold sumDels
      by_cases hi : isImage d.filename <;> simp [hi, List.filter_cons]

/-- Applying the inner per-branch fold of `buildCommitBranchMap` to one SHA:
a SHA occurring in the branch's list is (re)assigned to that branch. -/
lemma branchFold_apply (b : String) (shas : List String)
    (m : String → Option String) (s : String) :
    (shas.foldl (fun m2 sha => fun x => if x = sha then some b else m2 x) m) s
      = if s ∈ shas then some b else m s := by
  induction shas generalizing m with
  | nil => simp
  | cons sha rest ih =>
    simp only [List.foldl_cons]
    rw [ih]
    by_cases hs : s ∈ rest
    · simp [hs]
    · by_cases he : s = sha <;> simp [hs, he]

/-- Pointwise value of `buildCommitBranchMap`: a scalar fold over the
branches in enumeration order, later branches overwriting earlier ones. -/
lemma buildCommitBranchMap_foldl (bd : List (String × List String)) (s : String) :
    buildCommitBranchMap bd s
      = bd.foldl (fun acc p => if s ∈ p.2 then some p.1 else acc) none := by
  suffices h : ∀ (m : String → Option String),
      (bd.foldl
        (fun m p => p.2.foldl (fun m2 sha => fun x => if x = sha then some p.1 else m2 x) m)
        m) s
        = bd.foldl (fun acc p => if s ∈ p.2 then some p.1 else acc) (m s) by
    exact h (fun _ => none)
  induction bd with
  | nil => intro m; rfl
  | cons p rest ih =>
    intro m
    simp only [List.foldl_cons]
    rw [ih]
    congr 1
    exact branchFold_apply p.1 p.2 m s

/-- The scalar overwrite fold keeps the value of the last matching branch. -/
lemma scalarFold_lastWins (s : String) (bd : List (String × List String))
    (init : Option String) :
    bd.foldl (fun acc p => if s ∈ p.2 then some p.1 else acc) init
      = ((bd.reverse.find? (fun p => decide (s ∈ p.2))).map Prod.fst).or init := by
  induction bd generalizing init with
  | nil => simp
  | cons p rest ih =>
    simp only [List.foldl_cons, List.reverse_cons]
    rw [ih, List.find?_append]
    cases h : rest.reverse.find? (fun p => decide (s ∈ p.2)) with
    | some r => simp
    | none =>
      by_cases hs : s ∈ p.2 <;> simp [hs, List.find?]

/-- No first or last date forces zero activity days. -/
lemma activityDays_none (m : DevMetrics) (hf : m.first_commit = none)
    (hl : m.last_commit = none) : activityDays m = 0 := by
  unfold activityDays
  rw [hf, hl]

/-- The emitter's division guard: zero activity days yields zero average. -/
lemma avg_zero_of_activity_zero (m : DevMetrics) (h : activityDays m = 0) :
    avgCommitsPerDay m = 0 := by
  unfold avgCommitsPerDay
  rw [h]
  simp

/-- Sample branch map used by concrete witnesses. -/
def exBmap : String → Option String := fun _ => none

/-- Sample commit: alice adds 10 lines to a.py and removes 3 from b.png. -/
def exC : Commit :=
  { sha := "abc123", author_login := some "alice",
    commit_author := some { name := "Alice", date := 5 },
    files := [FileEvent.ok { filename := "a.py", additions := some 10, deletions := none },
      FileEvent.ok { filename := "b.png", additions := none, deletions := some 3 }] }

/-- Second sample commit, by a different developer. -/
def exC2 : Commit :=
  { sha := "def456", author_login := some "bob",
    commit_author := some { name := "Bob", date := 6 }, files := [] }

end GithubMetrics

namespace GithubMetrics

/-- C1: the commit-SHA-to-branch map retains, for each SHA, the LAST branch
(in enumeration order) whose fetched commits contain it, because each
branch's assignment overwrites any earlier one; the claimed first-seen
tie-break does not hold. -/
theorem commit_branch_map_last_writer_wins :
    ∀ (bd : List (String × List String)) (s : String),
      buildCommitBranchMap bd s
        = (bd.reverse.find? (fun p => decide (s ∈ p.2))).map Prod.fst := by
  intro bd s
  rw [buildCommitBranchMap_foldl, scalarFold_lastWins, Option.or_none]

/-- C1 counterexample: with enumeration order master before feature-x and
SHA abc123 on both, the map classifies abc123 under feature-x, not master. -/
theorem commit_branch_map_first_wins_cex :
    buildCommitBranchMap [("master", ["abc123"]), ("feature-x", ["abc123"])] "abc123"
        = some "feature-x" ∧
      buildCommitBranchMap [("master", ["abc123"]), ("feature-x", ["abc123"])] "abc123"
        ≠ some "master" := by
  constructor
  · rfl
  · decide

/-- C5: a commit whose raw author record is present but whose calendar date
is strictly before the window start is skipped entirely: the state is
returned unchanged, and a run continues exactly as if the commit were not
delivered at all. -/
theorem early_commit_skipped (sd : Int) (bmap : String → Option String)
    (st : AccState) (c : Commit) (ga : GitAuthor)
    (hga : c.commit_author = some ga) (hlt : ga.date < sd) :
    processCommit sd bmap st c = some st ∧
      ∀ cs : List Commit, runAccum sd bmap st (c :: cs) = runAccum sd bmap st cs := by
  have hp : processCommit sd bmap st c = some st := by
    unfold processCommit
    rw [hga]
    simp only [if_neg (not_le.mpr hlt)]
  refine ⟨hp, fun cs => ?_⟩
  show (match processCommit sd bmap st c with
        | none => none
        | some st2 => runAccum sd bmap st2 cs) = runAccum sd bmap st cs
  rw [hp]

/-- C5 witness: a concrete commit dated one day before the window start
leaves the state untouched. -/
theorem early_commit_skipped_witness :
    processCommit 10 (fun _ => none) initState
        { sha := "s0", author_login := some "alice",
          commit_author := some { name := "Alice", date := 9 }, files := [] }
      = some initState :=
  (early_commit_skipped 10 (fun _ => none) initState
    { sha := "s0", author_login := some "alice",
      commit_author := some { name := "Alice", date := 9 }, files := [] }
    { name := "Alice", date := 9 } rfl (by decide)).1

/-- C10: when both the platform author and the raw commit-author record are
absent, the fallback chain resolves the sentinel identity Unknown, but the
unconditional read of the raw record's date fails, so such a commit is never
counted and the whole run aborts. -/
theorem unknown_author_never_counted (sd : Int) (bmap : String → Option String)
    (st : AccState) (c : Commit)
    (hlogin : c.author_login = none) (hraw : c.commit_author = none) :
    resolveAuthor c = "Unknown" ∧ processCommit sd bmap st c = none ∧
      ∀ cs : List Commit, runAccum sd bmap st (c :: cs) = none := by
  have hres : resolveAuthor c = "Unknown" := by
    unfold resolveAuthor
    rw [hlogin, hraw]
  have hp : processCommit sd bmap st c = none := by
    unfold processCommit
    rw [hraw]
  refine ⟨hres, hp, fun cs => ?_⟩
  show (match processCommit sd bmap st c with
        | none => none
        | some st2 => runAccum sd bmap st2 cs) = none
  rw [hp]

/-- C10 witness: a concrete commit with both author fields absent resolves
to Unknown yet aborts processing. -/
theorem unknown_author_never_counted_witness :
    resolveAuthor { sha := "s9", author_login := none, commit_author := none, files := [] }
        = "Unknown" ∧
      processCommit 0 (fun _ => none) initState
          { sha := "s9", author_login := none, commit_author := none, files := [] }
        = none :=
  ⟨(unknown_author_never_counted 0 (fun _ => none) initState
      { sha := "s9", author_login := none, commit_author := none, files := [] } rfl rfl).1,
    (unknown_author_never_counted 0 (fun _ => none) initState
      { sha := "s9", author_login := none, commit_author := none, files := [] } rfl rfl).2.1⟩

/-- C2 counterexample: a commit present in the commit lists of two branches
is delivered twice by the collector and counted twice for its developer, not
once. -/
theorem commit_double_count_cex :
    (runAccum 0 exBmap initState (collectAll [("master", [exC]), ("feature-x", [exC])])).map
        (fun st => (st.metrics "alice").commits) = some 2 ∧
      ¬ (runAccum 0 exBmap initState (collectAll [("master", [exC]), ("feature-x", [exC])])).map
          (fun st => (st.metrics "alice").commits) = some 1 := by
  constructor
  · rfl
  · decide

/-- C2 (amended): a commit contributes once per occurrence in the collected
stream, so a commit present in k branch commit lists contributes k times to
its developer's commit count and to the team-wide total. -/
theorem per_occurrence_commit_count (sd : Int) (bmap : String → Option String)
    (bd : List (String × List Commit)) (st : AccState) (a : String)
    (hrun : runAccum sd bmap initState (collectAll bd) = some st) :
    (st.metrics a).commits = (collectAll bd).countP (countedFor sd a) ∧
      teamTotalCommits st = (collectAll bd).countP (countedCommit sd) := by
  have he := runAccum_some_eq sd bmap (collectAll bd) initState st hrun
  subst he
  constructor
  · rw [run_commits]
    simp [initState, devDefault]
  · rw [run_teamTotalCommits sd bmap (collectAll bd) initState List.nodup_nil
      (fun x _ => rfl)]
    simp [teamTotalCommits, initState]

/-- C2 witness: the two-branch duplicated commit stream satisfies the
per-occurrence counting law. -/
theorem per_occurrence_commit_count_witness :
    ((List.foldl (totalStep 0 exBmap) initState
          (collectAll [("master", [exC]), ("feature-x", [exC])])).metrics "alice").commits
      = (collectAll [("master", [exC]), ("feature-x", [exC])]).countP
          (countedFor 0 "alice") :=
  (per_occurrence_commit_count 0 exBmap [("master", [exC]), ("feature-x", [exC])]
    (List.foldl (totalStep 0 exBmap) initState
      (collectAll [("master", [exC]), ("feature-x", [exC])]))
    "alice" rfl).1

/-- C3: a developer's line totals are the sums of the per-file additions and
deletions (absent counts as 0) over the non-image deltas of the commits
counted for that developer, and the files-changed set never contains an
image filename. -/
theorem developer_line_sums (sd : Int) (bmap : String → Option String)
    (cs : List Commit) (st : AccState) (a : String)
    (hrun : runAccum sd bmap initState cs = some st)
    (hok : ∀ c ∈ cs, allOk c.files = true) :
    (st.metrics a).lines_added
        = ((cs.filter (countedFor sd a)).map (fun c => sumAdds (deltaList c.files))).sum ∧
      (st.metrics a).lines_removed
        = ((cs.filter (countedFor sd a)).map (fun c => sumDels (deltaList c.files))).sum ∧
      ∀ f ∈ (st.metrics a).files_changed, isImage f = false := by
  have he := runAccum_some_eq sd bmap cs initState st hrun
  subst he
  refine ⟨?_, ?_, ?_⟩
  · rw [run_lines_added]
    have hmap : (cs.filter (countedFor sd a)).map (fun c => addSum c.files)
        = (cs.filter (countedFor sd a)).map (fun c => sumAdds (deltaList c.files)) :=
      List.map_congr_left (fun c hc =>
        addSum_sumAdds c.files (hok c (List.mem_filter.mp hc).1))
    rw [hmap]
    simp [initState, devDefault]
  · rw [run_lines_removed]
    have hmap : (cs.filter (countedFor sd a)).map (fun c => delSum c.files)
        = (cs.filter (countedFor sd a)).map (fun c => sumDels (deltaList c.files)) :=
      List.map_congr_left (fun c hc =>
        delSum_sumDels c.files (hok c (List.mem_filter.mp hc).1))
    rw [hmap]
    simp [initState, devDefault]
  · intro f hf
    refine run_files_not_image sd bmap cs initState ?_ a f hf
    intro a2 f2 hf2
    exact absurd hf2 (Finset.not_mem_empty f2)

/-- C3 witness: alice's commit adding 10 lines to a.py and deleting 3 from
b.png is counted with the image file excluded. -/
theorem developer_line_sums_witness :
    ((List.foldl (totalStep 0 exBmap) initState [exC]).metrics "alice").lines_added
        = (([exC].filter (countedFor 0 "alice")).map
            (fun c => sumAdds (deltaList c.files))).sum ∧
      ((List.foldl (totalStep 0 exBmap) initState [exC]).metrics "alice").lines_removed
        = (([exC].filter (countedFor 0 "alice")).map
            (fun c => sumDels (deltaList c.files))).sum :=
  ⟨(developer_line_sums 0 exBmap [exC]
      (List.foldl (totalStep 0 exBmap) initState [exC]) "alice" rfl (by decide)).1,
    (developer_line_sums 0 exBmap [exC]
      (List.foldl (totalStep 0 exBmap) initState [exC]) "alice" rfl (by decide)).2.1⟩

/-- C4: over permuted commit streams the accumulator produces identical
per-developer counters (the whole metrics map) and the same developer key
set up to insertion order. -/
theorem accumulation_order_invariant (sd : Int) (bmap : String → Option String)
    (l1 l2 : List Commit) (st1 st2 : AccState) (hperm : l1.Perm l2)
    (h1 : runAccum sd bmap initState l1 = some st1)
    (h2 : runAccum sd bmap initState l2 = some st2) :
    st1.metrics = st2.metrics ∧ st1.authors.Perm st2.authors := by
  have e1 := runAccum_some_eq sd bmap l1 initState st1 h1
  have e2 := runAccum_some_eq sd bmap l2 initState st2 h2
  subst e1
  subst e2
  exact fold_perm_equiv sd bmap hperm initState

/-- C4 witness: swapping two concrete commits leaves all per-developer
counters unchanged. -/
theorem accumulation_order_invariant_witness :
    (List.foldl (totalStep 0 exBmap) initState [exC, exC2]).metrics
        = (List.foldl (totalStep 0 exBmap) initState [exC2, exC]).metrics ∧
      (List.foldl (totalStep 0 exBmap) initState [exC, exC2]).authors.Perm
        (List.foldl (totalStep 0 exBmap) initState [exC2, exC]).authors :=
  accumulation_order_invariant 0 exBmap [exC, exC2] [exC2, exC]
    (List.foldl (totalStep 0 exBmap) initState [exC, exC2])
    (List.foldl (totalStep 0 exBmap) initState [exC2, exC])
    (List.Perm.swap exC2 exC []) rfl rfl

/-- C6: for every developer key in the accumulator state, the daily-activity
table contains exactly 7 rows for that developer, one per day `end - i` for
`i` in 0..6, each showing `commits_per_day.get(date, 0)`. -/
theorem daily_rows_seven (sd : Int) (bmap : String → Option String)
    (cs : List Commit) (st : AccState) (endDay : Int) (a : String)
    (hrun : runAccum sd bmap initState cs = some st) (ha : a ∈ st.authors) :
    (dailyRows endDay st).filter (fun r => decide (r.1 = a))
        = (List.range 7).map (fun (i : Nat) => (a, endDay - (i : Int),
            (st.metrics a).commits_per_day (endDay - (i : Int)))) ∧
      ((dailyRows endDay st).filter (fun r => decide (r.1 = a))).length = 7 := by
  have he := runAccum_some_eq sd bmap cs initState st hrun
  subst he
  have hnd := run_nodup sd bmap cs initState List.nodup_nil
  have hfil : (dailyRows endDay (cs.foldl (totalStep sd bmap) initState)).filter
        (fun r => decide (r.1 = a))
      = (List.range 7).map (fun (i : Nat) => (a, endDay - (i : Int),
          ((cs.foldl (totalStep sd bmap) initState).metrics a).commits_per_day
            (endDay - (i : Int)))) := by
    rw [dailyRows_eq]
    refine filter_flatten_blocks _ _ a ?_ hnd ha
    intro x r hr
    obtain ⟨i, _, heq⟩ := List.mem_map.mp hr
    rw [← heq]
  refine ⟨hfil, ?_⟩
  rw [hfil]
  simp

/-- C6 witness: after a one-commit run, alice gets exactly 7 daily rows. -/
theorem daily_rows_seven_witness :
    ((dailyRows 10 (List.foldl (totalStep 0 exBmap) initState [exC])).filter
        (fun r => decide (r.1 = "alice"))).length = 7 :=
  (daily_rows_seven 0 exBmap [exC]
    (List.foldl (totalStep 0 exBmap) initState [exC]) 10 "alice" rfl (by decide)).2

/-- C7: the team summary rows are the per-developer sums, the coding-days
row is the cardinality of the union of the developers' coding-day sets, and
the active-developer row counts exactly the distinct resolved identities of
the counted commits. -/
theorem team_summary_consistent (sd : Int) (bmap : String → Option String)
    (cs : List Commit) (st : AccState)
    (hrun : runAccum sd bmap initState cs = some st) :
    teamTotalCommits st = (st.authors.map (fun a => (st.metrics a).commits)).sum ∧
      teamTotalLinesAdded st
        = (st.authors.map (fun a => (st.metrics a).lines_added)).sum ∧
      teamTotalLinesRemoved st
        = (st.authors.map (fun a => (st.metrics a).lines_removed)).sum ∧
      teamCodingDays st
        = (st.authors.toFinset.biUnion (fun a => (st.metrics a).coding_days)).card ∧
      teamActiveDevelopers st
        = ((cs.filter (countedCommit sd)).map resolveAuthor).toFinset.card := by
  have he := runAccum_some_eq sd bmap cs initState st hrun
  subst he
  refine ⟨rfl, rfl, rfl, ?_, ?_⟩
  · unfold teamCodingDays
    rw [foldl_union_eq, Finset.empty_union]
  · have hnd := run_nodup sd bmap cs initState List.nodup_nil
    unfold teamActiveDevelopers
    rw [← List.toFinset_card_of_nodup hnd]
    congr 1
    ext x
    rw [List.mem_toFinset, run_mem_authors sd bmap cs initState x, List.mem_toFinset]
    simp only [initState, List.mem_map, List.mem_filter, List.not_mem_nil, false_or]
    constructor
    · rintro ⟨c, hc, hcf⟩
      obtain ⟨hcc, hres⟩ := (countedFor_iff sd x c).mp hcf
      exact ⟨c, ⟨hc, hcc⟩, hres⟩
    · rintro ⟨c, ⟨hc, hcc⟩, hres⟩
      exact ⟨c, hc, (countedFor_iff sd x c).mpr ⟨hcc, hres⟩⟩

/-- C7 witness: a two-developer run reports two active developers, matching
the distinct counted identities. -/
theorem team_summary_consistent_witness :
    teamActiveDevelopers (List.foldl (totalStep 0 exBmap) initState [exC, exC2])
      = (([exC, exC2].filter (countedCommit 0)).map resolveAuthor).toFinset.card :=
  (team_summary_consistent 0 exBmap [exC, exC2]
    (List.foldl (totalStep 0 exBmap) initState [exC, exC2]) rfl).2.2.2.2

/-- C8: activity days equal last minus first plus one when both dates exist,
are zero for a developer with no counted commits (whose dates are both
absent), and the average divides only when activity days are positive,
returning zero otherwise. -/
theorem developer_activity_stats (sd : Int) (bmap : String → Option String)
    (cs : List Commit) (st : AccState) (a : String)
    (hrun : runAccum sd bmap initState cs = some st) :
    (∀ f l, (st.metrics a).first_commit = some f →
        (st.metrics a).last_commit = some l →
        activityDays (st.metrics a) = (l - f) + 1) ∧
      ((st.metrics a).commits = 0 →
        (st.metrics a).first_commit = none ∧ (st.metrics a).last_commit = none ∧
          activityDays (st.metrics a) = 0 ∧ avgCommitsPerDay (st.metrics a) = 0) ∧
      (0 < activityDays (st.metrics a) →
        avgCommitsPerDay (st.metrics a)
          = ((st.metrics a).commits : Rat) / ((activityDays (st.metrics a) : Int) : Rat)) ∧
      (activityDays (st.metrics a) = 0 → avgCommitsPerDay (st.metrics a) = 0) := by
  refine ⟨?_, ?_, ?_, ?_⟩
  · intro f l hf hl
    unfold activityDays
    rw [hf, hl]
  · intro h0
    have he := runAccum_some_eq sd bmap cs initState st hrun
    subst he
    have hbase : ∀ x, (initState.metrics x).commits = 0 →
        (initState.metrics x).first_commit = none ∧
          (initState.metrics x).last_commit = none :=
      fun x _ => ⟨rfl, rfl⟩
    obtain ⟨hf, hl⟩ := run_first_last_of_zero sd bmap cs initState hbase a h0
    exact ⟨hf, hl, activityDays_none _ hf hl,
      avg_zero_of_activity_zero _ (activityDays_none _ hf hl)⟩
  · intro h
    unfold avgCommitsPerDay
    rw [if_pos h]
  · intro h
    exact avg_zero_of_activity_zero _ h

/-- C8 witness: a developer with no commits has absent dates, zero activity
days and zero average, with no division performed. -/
theorem developer_activity_stats_witness :
    (initState.metrics "alice").first_commit = none ∧
      (initState.metrics "alice").last_commit = none ∧
      activityDays (initState.metrics "alice") = 0 ∧
      avgCommitsPerDay (initState.metrics "alice") = 0 :=
  (developer_activity_stats 0 exBmap [] initState "alice" rfl).2.1 rfl

/-- C9: a failure raised while iterating a commit's file deltas removes only
the not-yet-processed deltas of that commit: the run is identical to one
where the commit carries just the deltas processed before the failure, and
the remaining commits are processed normally. -/
theorem file_failure_truncates (sd : Int) (bmap : String → Option String)
    (st : AccState) (c : Commit) (pre post : List FileEvent) (cs : List Commit) :
    runAccum sd bmap st ({ c with files := pre ++ FileEvent.err :: post } :: cs)
      = runAccum sd bmap st ({ c with files := pre } :: cs) := by
  obtain ⟨csha, clogin, cauth, cfiles⟩ := c
  have hstep : ∀ (m : DevMetrics) (cd : Int),
      stepDev bmap m ⟨csha, clogin, cauth, pre ++ FileEvent.err :: post⟩ cd
        = stepDev bmap m ⟨csha, clogin, cauth, pre⟩ cd := by
    intro m cd
    rw [stepDev_decomp, stepDev_decomp]
    exact processFiles_err _ pre post
  have hpc : processCommit sd bmap st ⟨csha, clogin, cauth, pre ++ FileEvent.err :: post⟩
      = processCommit sd bmap st ⟨csha, clogin, cauth, pre⟩ := by
    cases cauth with
    | none => rfl
    | some ga =>
      by_cases hd : sd ≤ ga.date
      · simp only [processCommit, resolveAuthor, hstep, hd, if_true]
      · simp [processCommit, hd]
  show (match processCommit sd bmap st ⟨csha, clogin, cauth, pre ++ FileEvent.err :: post⟩ with
        | none => none
        | some st2 => runAccum sd bmap st2 cs)
      = (match processCommit sd bmap st ⟨csha, clogin, cauth, pre⟩ with
        | none => none
        | some st2 => runAccum sd bmap st2 cs)
  rw [hpc]

end GithubMetrics
